import Mathlib

/-!
Shallow embedding of the `nnet` feed-forward neural-network inference engine
(btracey/netbench) and verification of its specification claims.

The scalar type `float64` is abstracted as a type parameter `α` (with `Zero α`
where Go's `make([]float64, n)` zero-initialises); a `Neuron` is, as in the Go
interface, a record of its methods.  Go slices that are resliced in place are
modelled by `GoSlice` (backing data plus current logical length).
-/

namespace Netbench

/-- Embedding of the Go `Neuron` interface (neuron.go).  Only the methods used
by inference and construction are modelled; `Randomize` and the derivative
hooks are unused by every claim. -/
structure Neuron (α : Type) where
  numParameters : Int → Int
  combine : List α → List α → α
  activate : α → α

/-- `SumNeuron.Combine` (neuron.go): `combination += parameters[i]*inputs[i]`
over the inputs in order, then `combination += parameters[len(parameters)-1]`
(the bias).  Go panics when `parameters` is shorter than `inputs + 1`; the
model truncates/defaults there (outside the construction invariant). -/
def sumCombine {α : Type} [Zero α] [Add α] [Mul α] (parameters inputs : List α) : α :=
  ((inputs.zip parameters).foldl (fun acc vi => acc + vi.2 * vi.1) 0) + parameters.getLastD 0

/-- The Go `SumNeuron` (a weighted sum plus bias piped through an activator):
`NumParameters(n) = n + 1`.  The activation function (Tanh, Linear, ...) is
transcendental float math in Go and enters the model as the function `act`. -/
def SumNeuron {α : Type} [Zero α] [Add α] [Mul α] (act : α → α) : Neuron α :=
  ⟨fun n => n + 1, sumCombine, act⟩

/-- A Go slice over a fixed backing array: `data` is the backing array
(capacity = `data.length`) and `len` the current logical length, so the
visible contents are `data.take len`. -/
structure GoSlice (α : Type) where
  data : List α
  len : Nat

/-- The visible contents of a slice. -/
def GoSlice.view {α : Type} (b : GoSlice α) : List α := b.data.take b.len

/-- The values a layer computes (nnet.go `processLayer` body):
element `i` is `neurons[i].Activate(neurons[i].Combine(parameters[i], input))`.
Go panics when `parameters` is shorter than `neurons`; the model truncates. -/
def layerVals {α : Type} (input : List α) (neurons : List (Neuron α))
    (parameters : List (List α)) : List α :=
  (neurons.zip parameters).map fun np => np.1.activate (np.1.combine np.2 input)

/-- `processLayer` (nnet.go): writes the layer's values into the prefix of the
caller's `output` buffer, leaving any tail beyond `len(neurons)` unchanged
(Go panics when `output` is shorter than `neurons`). -/
def processLayer {α : Type} (input : List α) (neurons : List (Neuron α))
    (parameters : List (List α)) (output : List α) : List α :=
  layerVals input neurons parameters ++ output.drop (layerVals input neurons parameters).length

/-- Reslice a scratch buffer to the current layer's width and write the layer
values into it (`tmpOutput = tmpOutput[:len(neurons[i])]` followed by
`processLayer(..., tmpOutput)` in nnet.go).  Go panics when the width exceeds
the backing capacity; the callers presize the buffers to the widest layer. -/
def writeLayer {α : Type} (b : GoSlice α) (xs : List α) : GoSlice α :=
  ⟨xs ++ b.data.drop xs.length, xs.length⟩

/-- The middle-layer loop of `predict` (nnet.go lines 181–186): at each step
the two scratch buffers swap roles (ping-pong), the new destination is
resliced to the layer's width, and the layer is computed from the previous
layer's output (the view of the buffer written last). -/
def middleLayers {α : Type} :
    List (List (Neuron α) × List (List α)) → GoSlice α → GoSlice α → GoSlice α × GoSlice α
  | [], prevTmp, tmp => (prevTmp, tmp)
  | l :: rest, prevTmp, tmp =>
      middleLayers rest tmp (writeLayer prevTmp (layerVals tmp.view l.1 l.2))

/-- `predict` (nnet.go lines 168–196).  Layers are the zip of `neurons` with
`parameters` (Go indexes both by the same `i`).  Returns the two scratch
buffers and the caller's output buffer as left by the call.  Go panics when
`neurons` is empty (`neurons[0]` out of range); the model returns everything
unchanged there. -/
def predict {α : Type} (input : List α) (neurons : List (List (Neuron α)))
    (parameters : List (List (List α))) (prevTmpOutput tmpOutput : GoSlice α)
    (output : List α) : GoSlice α × GoSlice α × List α :=
  match neurons.zip parameters with
  | [] => (prevTmpOutput, tmpOutput, output)
  | [l] => (prevTmpOutput, tmpOutput, processLayer input l.1 l.2 output)
  | l0 :: l1 :: rest =>
      let tmp1 := writeLayer tmpOutput (layerVals input l0.1 l0.2)
      let mids := (l1 :: rest).dropLast
      let last := (l1 :: rest).getLast (by simp)
      let pt := middleLayers mids prevTmpOutput tmp1
      (pt.1, pt.2, processLayer pt.2.view last.1 last.2 output)

/-- `newPredictMemory` (nnet.go): allocates the two scratch buffers sized to
the widest layer (Go panics on an empty layer list; the model returns empty
buffers there). -/
def newPredictMemory {α : Type} [Zero α] (neurons : List (List (Neuron α))) :
    GoSlice α × GoSlice α :=
  match neurons with
  | [] => (⟨[], 0⟩, ⟨[], 0⟩)
  | n0 :: rest =>
      let m := rest.foldl (fun mx l => Nat.max mx l.length) n0.length
      (⟨List.replicate m 0, m⟩, ⟨List.replicate m 0, m⟩)

/-- The `Net` struct (nnet.go). -/
structure Net (α : Type) where
  inputDim : Int
  outputDim : Int
  totalNumParameters : Int
  grainSize : Int
  neurons : List (List (Neuron α))
  parameters : List (List (List α))

/-- `Net.Predict` (nnet.go lines 34–48): validates the input length, then
either allocates a fresh zeroed output buffer (`output == nil`) or validates
the supplied one, and runs `predict` with freshly allocated scratch memory.
The Go `(nil, error)` return is modelled as `Except`. -/
def Net.Predict {α : Type} [Zero α] (n : Net α) (input : List α)
    (output : Option (List α)) : Except String (List α) :=
  if (input.length : Int) ≠ n.inputDim then .error "input dimension mismatch"
  else
    match output with
    | none =>
        let out := List.replicate n.outputDim.toNat 0
        let mem := newPredictMemory n.neurons
        .ok (predict input n.neurons n.parameters mem.1 mem.2 out).2.2
    | some out =>
        if (out.length : Int) ≠ n.outputDim then .error "output dimension mismatch"
        else
          let mem := newPredictMemory n.neurons
          .ok (predict input n.neurons n.parameters mem.1 mem.2 out).2.2

/-- `Net.HackGrainSize` (nnet.go lines 60–62): stores the caller's grain size
with no validation. -/
def Net.HackGrainSize {α : Type} (n : Net α) (g : Int) : Net α :=
  { n with grainSize := g }

/-- `Net.setGrainSize` (nnet.go lines 64–95).  The Go float64 expression
`int(math.Ceil(100000 / (c * float64(nOps))))` with `c = 0.7` is modelled by
exact rational arithmetic. -/
def Net.setGrainSize {α : Type} (n : Net α) : Net α :=
  let neuronOverhead : Int := 70
  let layerOverhead : Int := 200
  let nNeurons : Int := (n.neurons.map fun layer => (layer.length : Int)).sum
  let nOps : Int := n.totalNumParameters + nNeurons * neuronOverhead
    + layerOverhead * (n.neurons.length : Int)
  let c : ℚ := 7 / 10
  let g : Int := ⌈(100000 : ℚ) / (c * (nOps : ℚ))⌉
  { n with grainSize := if g < 1 then 1 else g }

/-- `Trainer` (nnet.go): a wrapper around a `Net`. -/
structure Trainer (α : Type) where
  net : Net α

/-- Outcome of a Go constructor call: a value, a returned error, or a runtime
panic (e.g. `make` with a negative length, or indexing out of range). -/
inductive ConstrResult (α : Type) where
  | ok (t : Trainer α)
  | err (msg : String)
  | panicked
deriving Inhabited

/-- Whether construction produced a network. -/
def ConstrResult.isOk {α : Type} : ConstrResult α → Bool
  | .ok _ => true
  | _ => false

/-- `NewTrainer` (nnet.go lines 238–272): rejects an empty layer list and any
empty layer, then builds zeroed parameter vectors (`neuron.NumParameters`
applied to the running layer input width), totals the parameter count, and
sets the default grain size.  Note that it does not validate `inputDim` or
`outputDim`: the parameter-building loop runs `make([]float64, nParameters)`,
which panics at runtime when a neuron reports a negative parameter count
(e.g. a `SumNeuron` with a negative input width), and a zero or positive
count sails through. -/
def NewTrainer {α : Type} [Zero α] (inputDim outputDim : Int)
    (neurons : List (List (Neuron α))) : ConstrResult α :=
  if neurons.length = 0 then .err "net: no neurons given"
  else if neurons.any fun layer => layer.length = 0 then .err "net: layer with no neurons"
  else if (neurons.foldl
      (fun acc layer =>
        ((layer.length : Int),
          acc.2 || layer.any fun neuron => decide (neuron.numParameters acc.1 < 0)))
      (inputDim, false)).2 then .panicked
  else
    let step : (Int × Int × List (List (List α))) → List (Neuron α) →
        (Int × Int × List (List (List α))) := fun acc layer =>
      let layerParams := layer.map fun neuron =>
        List.replicate (neuron.numParameters acc.1).toNat (0 : α)
      let layerCount := (layer.map fun neuron => neuron.numParameters acc.1).sum
      ((layer.length : Int), acc.2.1 + layerCount, acc.2.2 ++ [layerParams])
    let built := neurons.foldl step (inputDim, 0, [])
    let net : Net α :=
      { inputDim := inputDim
        outputDim := outputDim
        totalNumParameters := built.2.1
        grainSize := 0
        neurons := neurons
        parameters := built.2.2 }
    .ok ⟨net.setGrainSize⟩

/-- `NewSimpleTrainer` (nnet.go lines 207–235).  The third validation in the
source re-checks `inputDim <= 0` (its error message says "non-positive number
of neurons per layer"); `nNeuronsPerLayer` itself is never validated.  With
`nHiddenLayers ≥ 1` and a negative `nNeuronsPerLayer`, `make([]Neuron, n)`
panics; with a negative `nHiddenLayers`, the `neurons[nHiddenLayers]`
assignment (or the initial `make`) panics.  The hidden layers use the package
`TanhNeuron` (a `SumNeuron` with the Tanh activator, abstracted as
`tanhAct`); the final layer uses `SumNeuron` with `finalLayerActivator`. -/
def NewSimpleTrainer {α : Type} [Zero α] [Add α] [Mul α] (tanhAct : α → α)
    (inputDim outputDim nHiddenLayers nNeuronsPerLayer : Int)
    (finalLayerActivator : α → α) : ConstrResult α :=
  if inputDim ≤ 0 then .err "non-positive input dimension"
  else if outputDim ≤ 0 then .err "non-positive output dimension"
  else if inputDim ≤ 0 then .err "non-positive number of neurons per layer"
  else if nHiddenLayers < 0 then .panicked
  else if 0 < nHiddenLayers ∧ nNeuronsPerLayer < 0 then .panicked
  else
    let hidden := List.replicate nHiddenLayers.toNat
      (List.replicate nNeuronsPerLayer.toNat (SumNeuron tanhAct))
    let final := List.replicate outputDim.toNat (SumNeuron finalLayerActivator)
    NewTrainer inputDim outputDim (hidden ++ [final])

/-- The successive chunk claims of `ParallelFor` (neuron.go lines 207–229),
starting from counter value `s`: each claim takes `[start, min(start+g, n))`
and the next start is `start + g`.  The guard includes `0 < g` because the Go
loop never terminates for `grain ≤ 0` when `n > 0` (see the termination
claim); the uint64 counter is modelled as unbounded. -/
def claimFrom (n g s : Nat) : List (Nat × Nat) :=
  if _h : 0 < g ∧ s < n then (s, min (s + g) n) :: claimFrom n g (s + g) else []
termination_by n - s
decreasing_by omega

/-- All chunks claimed by `ParallelFor(n, g, f)`, in claim order. -/
def chunks (n g : Nat) : List (Nat × Nat) := claimFrom n g 0

/-- The shared atomic counter of `ParallelFor` after `j` fetch-and-adds of
`grain` (modelled over `Int`; the Go counter is a `uint64` that the code
converts to `int`, exact for realistic sizes). -/
def idxAfter (g : Int) : Nat → Int
  | 0 => 0
  | j + 1 => idxAfter g j + g

/-- The start index of the `j`-th claim in `ParallelFor`:
`start := int(atomic.AddUint64(&idx, uint64(grain))) - grain`. -/
def claimStart (g : Int) (j : Nat) : Int := idxAfter g (j + 1) - g

/-- A row-major matrix collaborator (`RowMatrix` / `MutableRowMatrix`):
row data plus whether the dynamic type additionally implements the optional
`RowViewer` capability (the Go dispatcher probes it with a type assertion;
the repository's `SosMatrix` implements it). -/
structure Mat (α : Type) where
  rows : List (List α)
  rowViewer : Bool

/-- The column count reported by `Dims` (`SosMatrix.Dims` returns
`len(s), len(s[0])`; Go panics on an empty matrix, the model reports 0). -/
def matWidth {α : Type} (m : Mat α) : Nat := (m.rows.headD []).length

/-- `copy(dst, src)` in Go: overwrites the first `min |dst| |src|` elements of
`dst` with those of `src`; `dst` keeps its length. -/
def goCopy {α : Type} (dst src : List α) : List α :=
  src.take (min dst.length src.length) ++ dst.drop (min dst.length src.length)

/-- `SosMatrix.Row` (sosmatrix.go): reallocate or reslice the destination
buffer to the matrix width, then copy row `i` into it. -/
def Row {α : Type} [Zero α] (rows : List (List α)) (d : List α) (i : Nat) : List α :=
  let w := (rows.headD []).length
  let d' := if d.length < w then List.replicate w (0 : α) else d.take w
  goCopy d' (rows.getD i [])

/-- `SosMatrix.SetRow` (sosmatrix.go): `copy(s[i], d)`. -/
def SetRow {α : Type} (rows : List (List α)) (i : Nat) (d : List α) : List (List α) :=
  rows.set i (goCopy (rows.getD i []) d)

/-- The `predictor` struct (nnet.go lines 126–134): the shared net plus
private scratch memory. -/
structure predictor (α : Type) where
  neurons : List (List (Neuron α))
  parameters : List (List (List α))
  tmpOutput : GoSlice α
  prevTmpOutput : GoSlice α
  inputDim : Int
  outputDim : Int

/-- `predictor.Predict` (nnet.go lines 136–139): runs `predict` with the
stored scratch buffers and returns the written output buffer.  The Go method
mutates the scratch arrays in place across calls, but the forward pass writes
every scratch cell it later reads, so the returned output never depends on the
incoming scratch contents (`predict_out_eq` below); the model therefore keeps
the predictor immutable. -/
def predictor.Predict {α : Type} (p : predictor α) (input output : List α) : List α :=
  (predict input p.neurons p.parameters p.prevTmpOutput p.tmpOutput output).2.2

/-- The `batchPredictor` struct (nnet.go lines 103–108). -/
structure batchPredictor (α : Type) where
  neurons : List (List (Neuron α))
  parameters : List (List (List α))
  inputDim : Int
  outputDim : Int

/-- `batchPredictor.NewPredictor` (nnet.go lines 112–122): fresh scratch
memory bound to the shared net. -/
def batchPredictor.NewPredictor {α : Type} [Zero α] (b : batchPredictor α) : predictor α :=
  let mem := newPredictMemory b.neurons
  ⟨b.neurons, b.parameters, mem.2, mem.1, b.inputDim, b.outputDim⟩

/-- The strategy selected by the dispatch `switch` in `BatchPredict`
(part_002 lines 48–90).  In Go, `case inputIsRowViewer, outputIsRowViewer:`
matches when either side is a `RowViewer`, so it is selected first whenever
at least one side has the capability; the two mixed-capability cases below it
are unreachable. -/
inductive Strategy where
  | bothView
  | viewInCopyOut
  | copyInViewOut
  | copyBoth
  | unreachable
deriving DecidableEq

/-- The dispatch selection, with the source's case order. -/
def dispatchCase (inV outV : Bool) : Strategy :=
  if inV || outV then .bothView
  else if inV && !outV then .viewInCopyOut
  else if !inV && outV then .copyInViewOut
  else if !inV && !outV then .copyBoth
  else .unreachable

/-- The row loop of the both-sides-`RowViewer` strategy (part_002 lines
52–57), driven over the claimed chunks: each chunk constructs a fresh
predictor and predicts each row in `[start, end)` through row views, writing
the result in place into the output row. -/
def runRowView {α : Type} [Zero α] (bp : batchPredictor α) (inputs : List (List α))
    (outRows : List (List α)) (chs : List (Nat × Nat)) : List (List α) :=
  chs.foldl
    (fun rows c =>
      let p := bp.NewPredictor
      (List.range' c.1 (c.2 - c.1)).foldl
        (fun rows i => rows.set i (p.Predict (inputs.getD i []) (rows.getD i []))) rows)
    outRows

/-- The row loop of the neither-side-`RowViewer` strategy (part_002 lines
78–89): per chunk, a fresh predictor and fresh temporary row buffers; per
row, `Row` copies into the buffers, `Predict` runs on them, and `SetRow`
copies the result back into the sink.  The fold state is (output rows,
input buffer, output buffer). -/
def runCopyBoth {α : Type} [Zero α] (bp : batchPredictor α) (inputs : List (List α))
    (inputDim outputDim : Int) (outRows : List (List α)) (chs : List (Nat × Nat)) :
    List (List α) :=
  chs.foldl
    (fun rows c =>
      let p := bp.NewPredictor
      ((List.range' c.1 (c.2 - c.1)).foldl
        (fun st i =>
          let input := Row inputs st.2.1 i
          let output := Row st.1 st.2.2 i
          let out := p.Predict input output
          (SetRow st.1 i out, input, out))
        (rows, List.replicate inputDim.toNat (0 : α),
          List.replicate outputDim.toNat (0 : α))).1)
    outRows

/-- Result of `BatchPredict`: a result matrix, a returned error together with
the untouched `outputs` argument (Go returns `(outputs, err)`), or a runtime
panic (`RowView` called through a nil interface on a side that lacks the
capability). -/
inductive BPResult (α : Type) where
  | ok (outputs : Mat α)
  | err (outputs : Option (Mat α)) (msg : String)
  | panicked

/-- Whether `BatchPredict` returned an error. -/
def BPResult.isErr {α : Type} : BPResult α → Bool
  | .err _ _ => true
  | _ => false

/-- The dispatch-and-run phase of `BatchPredict` (part_002 lines 41–93).
When the selected strategy calls `RowView` on a side that is not a
`RowViewer`, the worker panics on its first row, so the call panics whenever
any chunk is claimed (with no chunk — `nSamples == 0` — the closure never
runs).  The two mixed strategies are dead code and are mapped to the panic
outcome they would produce if ever selected with a nil view side. -/
def dispatchRun {α : Type} [Zero α] (batch : batchPredictor α) (inputs : Mat α)
    (outputs : Mat α) (inputDim outputDim grainSize : Int) : BPResult α :=
  let nSamples := inputs.rows.length
  let chs := chunks nSamples grainSize.toNat
  match dispatchCase inputs.rowViewer outputs.rowViewer with
  | .bothView =>
      if inputs.rowViewer && outputs.rowViewer then
        .ok ⟨runRowView batch inputs.rows outputs.rows chs, outputs.rowViewer⟩
      else if chs = [] then .ok outputs
      else .panicked
  | .copyBoth =>
      .ok ⟨runCopyBoth batch inputs.rows inputDim outputDim outputs.rows chs,
        outputs.rowViewer⟩
  | _ => .panicked

/-- `BatchPredict` (part_002 lines 9–94): validates the input width, then
either allocates a fresh `SosMatrix` sink (`nSamples × outputDim`, zeroed, a
`RowViewer`) or validates the supplied sink's width and row count, and then
dispatches. -/
def BatchPredict {α : Type} [Zero α] (batch : batchPredictor α) (inputs : Mat α)
    (outputs : Option (Mat α)) (inputDim outputDim grainSize : Int) : BPResult α :=
  let nSamples := inputs.rows.length
  if inputDim ≠ (matWidth inputs : Int) then
    .err outputs "predict batch: input dimension mismatch"
  else
    match outputs with
    | none =>
        let s : Mat α :=
          ⟨List.replicate nSamples (List.replicate outputDim.toNat (0 : α)), true⟩
        dispatchRun batch inputs s inputDim outputDim grainSize
    | some outs =>
        if (matWidth outs : Int) ≠ outputDim then
          .err (some outs) "predict batch: output dimension mismatch"
        else if nSamples ≠ outs.rows.length then
          .err (some outs) "predict batch: rows mismatch"
        else dispatchRun batch inputs outs inputDim outputDim grainSize

/-- `Net.PredictBatch` (nnet.go lines 50–58). -/
def Net.PredictBatch {α : Type} [Zero α] (n : Net α) (inputs : Mat α)
    (outputs : Option (Mat α)) : BPResult α :=
  BatchPredict ⟨n.neurons, n.parameters, n.inputDim, n.outputDim⟩ inputs outputs
    n.inputDim n.outputDim n.grainSize

/-!  Address-level model of the forward pass, for the frame (non-aliasing)
property.  Go's `predict` receives its input, scratch and output buffers as
slices that may in principle alias; the heap maps a buffer address to its
backing array, and every slice write is an explicit heap update, so the model
can express which buffers a call mutates. -/

/-- A heap of float buffers, indexed by address. -/
def Heap (α : Type) : Type := Nat → List α

/-- Write element `i` of the buffer at address `a`. -/
def hSet {α : Type} (h : Heap α) (a i : Nat) (v : α) : Heap α :=
  fun b => if b = a then (h a).set i v else h b

/-- `processLayer` at address level: for each neuron `i`,
`output[i] = neurons[i].Activate(neurons[i].Combine(parameters[i], input))`,
where the input view (`iLen` leading elements of the buffer at `ia`) is read
from the heap as it stands at that iteration — so writes through an aliased
output slice are visible to later reads, exactly as in Go. -/
def processLayerH {α : Type} (ia iLen : Nat) (neurons : List (Neuron α))
    (parameters : List (List α)) (oa : Nat) (h : Heap α) : Heap α :=
  ((neurons.zip parameters).enum).foldl
    (fun h ni => hSet h oa ni.1 (ni.2.1.activate (ni.2.1.combine ni.2.2 ((h ia).take iLen))))
    h

/-- The middle-layer loop at address level: the scratch addresses swap roles,
and the new destination is resliced to the layer width.  Returns the final
(prev, tmp) addresses, the tmp view length, and the heap. -/
def middleLayersH {α : Type} :
    List (List (Neuron α) × List (List α)) → Nat → Nat → Nat → Heap α →
      Nat × Nat × Nat × Heap α
  | [], pa, ta, tLen, h => (pa, ta, tLen, h)
  | l :: rest, pa, ta, tLen, h =>
      middleLayersH rest ta pa (l.1.zip l.2).length (processLayerH ta tLen l.1 l.2 pa h)

/-- `predict` at address level: `ia`/`pa`/`ta`/`oa` are the input, prevTmp,
tmp and output buffer addresses, `iLen` the input view length. -/
def predictH {α : Type} (ia iLen : Nat) (neurons : List (List (Neuron α)))
    (parameters : List (List (List α))) (pa ta oa : Nat) (h : Heap α) : Heap α :=
  match neurons.zip parameters with
  | [] => h
  | [l] => processLayerH ia iLen l.1 l.2 oa h
  | l0 :: l1 :: rest =>
      let h1 := processLayerH ia iLen l0.1 l0.2 ta h
      let mids := (l1 :: rest).dropLast
      let last := (l1 :: rest).getLast (by simp)
      let r := middleLayersH mids pa ta (l0.1.zip l0.2).length h1
      processLayerH r.2.1 r.2.2.1 last.1 last.2 oa r.2.2.2

/-!  ## Forward-pass lemmas -/

/-- The layer-by-layer denotation of the forward pass: fold the per-layer
value map over the zipped (neurons, parameters) layers. -/
def forward {α : Type} (input : List α) (ls : List (List (Neuron α) × List (List α))) :
    List α :=
  ls.foldl (fun v l => layerVals v l.1 l.2) input

theorem writeLayer_view {α : Type} (b : GoSlice α) (xs : List α) :
    (writeLayer b xs).view = xs := by
  simp [writeLayer, GoSlice.view, List.take_left]

theorem middleLayers_view {α : Type}
    (ls : List (List (Neuron α) × List (List α))) (p t : GoSlice α) :
    (middleLayers ls p t).2.view = forward t.view ls := by
  induction ls generalizing p t with
  | nil => rfl
  | cons l rest ih => simp [middleLayers, forward, ih, writeLayer_view]

/-- The output buffer as left by `predict`: the final layer's values written
over the buffer's prefix, where the final layer's input is the forward
composition of all earlier layers.  In particular the result does not depend
on the scratch buffers' contents. -/
theorem predict_out_eq {α : Type} (input : List α) (neurons : List (List (Neuron α)))
    (parameters : List (List (List α))) (b1 b2 : GoSlice α) (output : List α)
    (h : neurons.zip parameters ≠ []) :
    (predict input neurons parameters b1 b2 output).2.2 =
      processLayer (forward input (neurons.zip parameters).dropLast)
        ((neurons.zip parameters).getLastD ([], [])).1
        ((neurons.zip parameters).getLastD ([], [])).2 output := by
  unfold predict
  rcases hL : neurons.zip parameters with _ | ⟨l0, _ | ⟨l1, rest⟩⟩
  · exact absurd hL h
  · simp [forward]
  · simp only []
    rw [middleLayers_view, writeLayer_view]
    have hgl : (l1 :: rest).getLast (by simp) = (l0 :: l1 :: rest).getLastD ([], []) := by
      rw [List.getLastD_eq_getLast?, List.getLast?_eq_getLast _ (by simp)]
      simp [List.getLast_cons]
    have hdl : (l0 :: l1 :: rest).dropLast = l0 :: (l1 :: rest).dropLast := rfl
    rw [hgl, hdl]
    simp [forward]

/-- Element `i` of a layer's values is
`neurons[i].Activate(neurons[i].Combine(parameters[i], input))`. -/
theorem layerVals_getD {α : Type} (input : List α) (dn : Neuron α) (z : α) :
    ∀ (neurons : List (Neuron α)) (parameters : List (List α)) (i : Nat),
      i < neurons.length → i < parameters.length →
      (layerVals input neurons parameters).getD i z =
        (neurons.getD i dn).activate
          ((neurons.getD i dn).combine (parameters.getD i []) input)
  | n :: _, p :: _, 0, _, _ => by simp [layerVals]
  | n :: ns, p :: ps, i + 1, hn, hp => by
      simpa [layerVals] using
        layerVals_getD input dn z ns ps i (by simpa using hn) (by simpa using hp)

/-- **C3**: the forward pass computes each layer element as
`activate (combine parameters input)`; a single-layer network is computed
directly into the caller-supplied output buffer with the scratch buffers
untouched; for multi-layer networks the scratch buffers ping-pong (the
returned tmp buffer's view is the second-to-last layer's output, resliced to
that layer's width), and the final layer is always written into the caller's
output buffer. -/
theorem c3_forward_pass_structure {α : Type} (input : List α)
    (neurons : List (List (Neuron α))) (parameters : List (List (List α)))
    (b1 b2 : GoSlice α) (output : List α) :
    (∀ l, neurons.zip parameters = [l] →
      predict input neurons parameters b1 b2 output =
        (b1, b2, processLayer input l.1 l.2 output))
    ∧ (neurons.zip parameters ≠ [] →
      (predict input neurons parameters b1 b2 output).2.2 =
        processLayer (forward input (neurons.zip parameters).dropLast)
          ((neurons.zip parameters).getLastD ([], [])).1
          ((neurons.zip parameters).getLastD ([], [])).2 output)
    ∧ (2 ≤ (neurons.zip parameters).length →
      ((predict input neurons parameters b1 b2 output).2.1).view =
        forward input (neurons.zip parameters).dropLast)
    ∧ (∀ (x : List α) (ns : List (Neuron α)) (ps : List (List α)) (dn : Neuron α)
        (z : α) (i : Nat), i < ns.length → i < ps.length →
      (layerVals x ns ps).getD i z =
        (ns.getD i dn).activate ((ns.getD i dn).combine (ps.getD i []) x)) := by
  refine ⟨?_, predict_out_eq input neurons parameters b1 b2 output, ?_,
    fun x ns ps dn z i hn hp => layerVals_getD x dn z ns ps i hn hp⟩
  · intro l hL
    unfold predict
    rw [hL]
  · intro hlen
    unfold predict
    rcases hL : neurons.zip parameters with _ | ⟨l0, _ | ⟨l1, rest⟩⟩
    · rw [hL] at hlen; simp at hlen
    · rw [hL] at hlen; simp at hlen
    · simp only []
      rw [middleLayers_view, writeLayer_view]
      have hdl : (l0 :: l1 :: rest).dropLast = l0 :: (l1 :: rest).dropLast := rfl
      rw [hdl]
      simp [forward]

/-!  ## Chunk-claiming lemmas (`ParallelFor`) -/

theorem claimFrom_mem (n g s : Nat) :
    ∀ c ∈ claimFrom n g s, s ≤ c.1 ∧ c.1 < c.2 ∧ c.2 ≤ n := by
  rw [claimFrom]
  split
  next h =>
    intro c hc
    rcases List.mem_cons.1 hc with rfl | hc
    · exact ⟨le_refl _, by simp; omega, by simp⟩
    · have := claimFrom_mem n g (s + g) c hc
      omega
  next h => intro c hc; simp at hc
termination_by n - s
decreasing_by omega

theorem claimFrom_pairwise (n g s : Nat) :
    (claimFrom n g s).Pairwise (fun c d => c.2 ≤ d.1) := by
  rw [claimFrom]
  split
  next h =>
    refine List.Pairwise.cons ?_ (claimFrom_pairwise n g (s + g))
    intro d hd
    have := claimFrom_mem n g (s + g) d hd
    simp only []
    omega
  next h => exact List.Pairwise.nil
termination_by n - s
decreasing_by omega

/-- The indices covered by the claimed chunks, in order, are exactly
`s, s+1, ..., n-1`. -/
theorem claimFrom_flat (n g : Nat) (hg : 0 < g) (s : Nat) :
    (claimFrom n g s).flatMap (fun c => List.range' c.1 (c.2 - c.1)) =
      List.range' s (n - s) := by
  rw [claimFrom]
  split
  next h =>
    rw [List.flatMap_cons, claimFrom_flat n g hg (s + g)]
    rcases Nat.le_total (s + g) n with hle | hle
    · have h1 : min (s + g) n = s + g := by omega
      rw [h1]
      have h2 : s + g - s = g := by omega
      rw [h2]
      have := List.range'_append_1 s g (n - (s + g))
      rw [this]
      congr 1
      omega
    · have h1 : min (s + g) n = n := by omega
      rw [h1]
      have h2 : n - (s + g) = 0 := by omega
      rw [h2]
      simp
  next h =>
    have : n - s = 0 := by omega
    simp [this]
termination_by n - s
decreasing_by omega

/-- **C7**: for every `n` and grain size `≥ 1`, the chunk-claiming scheme of
`ParallelFor` partitions `[0, n)` exactly: chunks are nonempty subranges of
`[0, n)`, pairwise disjoint (each ends before the next begins) and pairwise
distinct, every index below `n` lies in some chunk and no index `≥ n` does,
and for `n = 0` no chunk is claimed at all. -/
theorem c7_parallel_for_partition (n g : Nat) (hg : 1 ≤ g) :
    (∀ c ∈ chunks n g, c.1 < c.2 ∧ c.2 ≤ n)
    ∧ (chunks n g).Pairwise (fun c d => c.2 ≤ d.1)
    ∧ (chunks n g).Nodup
    ∧ (∀ k, k < n ↔ ∃ c ∈ chunks n g, c.1 ≤ k ∧ k < c.2)
    ∧ (n = 0 → chunks n g = []) := by
  have hmem := claimFrom_mem n g 0
  have hpw := claimFrom_pairwise n g 0
  have hflat := claimFrom_flat n g hg 0
  refine ⟨fun c hc => ⟨(hmem c hc).2.1, (hmem c hc).2.2⟩, hpw, ?_, ?_, ?_⟩
  · refine hpw.imp_of_mem ?_
    intro c d hc hd hcd
    have h1 := hmem c hc
    have h2 := hmem d hd
    intro he
    rw [he] at hcd
    omega
  · intro k
    constructor
    · intro hk
      have : k ∈ List.range' 0 (n - 0) := by
        rw [List.mem_range'_1]
        omega
      rw [← hflat] at this
      rcases List.mem_flatMap.1 this with ⟨c, hc, hkc⟩
      rw [List.mem_range'_1] at hkc
      have := hmem c hc
      exact ⟨c, hc, by omega⟩
    · rintro ⟨c, hc, h1, h2⟩
      have := hmem c hc
      omega
  · intro hn
    subst hn
    rw [chunks, claimFrom]
    simp

/-- Witness for C7 at the spec's concrete scenario `n = 37`, `grainSize = 5`. -/
theorem c7_parallel_for_partition_witness :
    1 ≤ 5 ∧
    ((∀ c ∈ chunks 37 5, c.1 < c.2 ∧ c.2 ≤ 37)
    ∧ (chunks 37 5).Pairwise (fun c d => c.2 ≤ d.1)
    ∧ (chunks 37 5).Nodup
    ∧ (∀ k, k < 37 ↔ ∃ c ∈ chunks 37 5, c.1 ≤ k ∧ k < c.2)
    ∧ (37 = 0 → chunks 37 5 = [])) :=
  ⟨by decide, c7_parallel_for_partition 37 5 (by decide)⟩

theorem idxAfter_eq (g : Int) : ∀ j : Nat, idxAfter g j = j * g
  | 0 => by simp [idxAfter]
  | j + 1 => by
      rw [idxAfter, idxAfter_eq g j]
      push_cast
      ring

theorem claimStart_eq (g : Int) (j : Nat) : claimStart g j = j * g := by
  rw [claimStart, idxAfter_eq]
  push_cast
  ring

/-- **C10**: a worker's claiming loop in `ParallelFor` can reach its exit
condition `start ≥ n` (for `n > 0`) exactly when the grain size is at least
1; with grain `≤ 0` the claimed start index never advances, so the loop never
terminates.  The construction-time default grain size always satisfies
`≥ 1`, while `HackGrainSize` stores any caller-supplied override
unvalidated. -/
theorem c10_claim_loop_termination (g : Int) (n : Nat) (hn : 0 < n) :
    ((∃ j : Nat, (n : Int) ≤ claimStart g j) ↔ 1 ≤ g)
    ∧ (g ≤ 0 → ∀ j : Nat, claimStart g (j + 1) ≤ claimStart g j)
    ∧ (∀ (α : Type) (net : Net α) (g' : Int), (net.HackGrainSize g').grainSize = g')
    ∧ (∀ (α : Type) (_ : Zero α) (inputDim outputDim : Int)
        (neurons : List (List (Neuron α))) (t : Trainer α),
        NewTrainer inputDim outputDim neurons = .ok t → 1 ≤ t.net.grainSize) := by
  refine ⟨⟨?_, ?_⟩, ?_, fun _ _ _ => rfl, ?_⟩
  · rintro ⟨j, hj⟩
    by_contra hg
    rw [claimStart_eq] at hj
    have h1 : g ≤ 0 := by omega
    have h2 : (j : Int) * g ≤ 0 :=
      mul_nonpos_iff.2 (Or.inl ⟨by positivity, h1⟩)
    omega
  · intro hg
    refine ⟨n, ?_⟩
    rw [claimStart_eq]
    calc (n : Int) = n * 1 := by ring
    _ ≤ n * g := by
      apply mul_le_mul_of_nonneg_left hg
      positivity
  · intro hg j
    rw [claimStart_eq, claimStart_eq]
    have : ((j : Int) + 1) * g ≤ j * g := by nlinarith
    push_cast
    linarith
  · intro α _ inputDim outputDim neurons t h
    rw [NewTrainer] at h
    split at h
    · exact absurd h (by simp)
    · split at h
      · exact absurd h (by simp)
      · split at h
        · exact absurd h (by simp)
        · simp only [ConstrResult.ok.injEq] at h
          subst h
          simp only [Net.setGrainSize]
          split
          · omega
          · omega

/-- Witness for C10 at `g = 0`, `n = 1`. -/
theorem c10_claim_loop_termination_witness :
    (0 : Nat) < 1 ∧
    (((∃ j : Nat, ((1 : Nat) : Int) ≤ claimStart 0 j) ↔ 1 ≤ (0 : Int))
    ∧ ((0 : Int) ≤ 0 → ∀ j : Nat, claimStart 0 (j + 1) ≤ claimStart 0 j)
    ∧ (∀ (α : Type) (net : Net α) (g' : Int), (net.HackGrainSize g').grainSize = g')
    ∧ (∀ (α : Type) (_ : Zero α) (inputDim outputDim : Int)
        (neurons : List (List (Neuron α))) (t : Trainer α),
        NewTrainer inputDim outputDim neurons = .ok t → 1 ≤ t.net.grainSize)) :=
  ⟨by decide, c10_claim_loop_termination 0 1 (by decide)⟩

/-!  ## Grain-size policy -/

theorem setGrainSize_proj {α : Type} (n : Net α) :
    (Net.setGrainSize n).totalNumParameters = n.totalNumParameters
    ∧ (Net.setGrainSize n).neurons = n.neurons :=
  ⟨rfl, rfl⟩

theorem setGrainSize_grain {α : Type} (n : Net α) :
    (Net.setGrainSize n).grainSize =
      max 1 ⌈(100000 : ℚ) / ((7 / 10 : ℚ) * ((n.totalNumParameters
          + 70 * (n.neurons.map fun l => (l.length : Int)).sum
          + 200 * (n.neurons.length : Int) : Int) : ℚ))⌉ := by
  simp only [Net.setGrainSize]
  have harg : (n.totalNumParameters + (n.neurons.map fun l => (l.length : Int)).sum * 70
      + 200 * (n.neurons.length : Int)) =
      (n.totalNumParameters + 70 * (n.neurons.map fun l => (l.length : Int)).sum
      + 200 * (n.neurons.length : Int)) := by ring
  rw [harg]
  split
  next hlt => rw [max_eq_left (by omega)]
  next hlt => rw [max_eq_right (by omega)]

theorem setGrainSize_ge_one {α : Type} (n : Net α) :
    1 ≤ (Net.setGrainSize n).grainSize := by
  simp only [Net.setGrainSize]
  split
  · omega
  · omega

/-- **C8**: for every network the construction produces, the stored default
grain size equals `ceil(100000 / (0.7 × nOps))` floored at 1, where
`nOps = totalParameters + 70 × totalNeurons + 200 × layerCount`, and in
particular it is always at least 1.  (The Go float64 expression is modelled
by exact rational arithmetic.) -/
theorem c8_default_grain_size {α : Type} [Zero α] (inputDim outputDim : Int)
    (neurons : List (List (Neuron α))) (t : Trainer α)
    (h : NewTrainer inputDim outputDim neurons = .ok t) :
    t.net.grainSize =
      max 1 ⌈(100000 : ℚ) /
        ((7 / 10 : ℚ) * ((t.net.totalNumParameters
          + 70 * (t.net.neurons.map fun l => (l.length : Int)).sum
          + 200 * (t.net.neurons.length : Int) : Int) : ℚ))⌉
    ∧ 1 ≤ t.net.grainSize := by
  rw [NewTrainer] at h
  split at h
  · exact absurd h (by simp)
  · split at h
    · exact absurd h (by simp)
    · split at h
      · exact absurd h (by simp)
      · simp only [ConstrResult.ok.injEq] at h
        subst h
        refine ⟨?_, setGrainSize_ge_one _⟩
        rw [(setGrainSize_proj _).1, (setGrainSize_proj _).2]
        exact setGrainSize_grain _

/-- Extract the trainer from a successful construction. -/
def theOk {α : Type} (r : ConstrResult α) (d : Trainer α) : Trainer α :=
  match r with
  | .ok t => t
  | _ => d

/-- A junk trainer used only as the impossible-case default of `theOk`. -/
def junkTrainer : Trainer Int := ⟨⟨0, 0, 0, 0, [], []⟩⟩

/-- The network `NewTrainer 2 1 [[SumNeuron id]]` constructs over `Int`:
one layer of one sum neuron, 3 parameters, so
`nOps = 3 + 70·1 + 200·1 = 273` and the default grain size is
`ceil(100000 / (0.7 · 273)) = 524`. -/
def exTrainer : Trainer Int := theOk (NewTrainer 2 1 [[SumNeuron id]]) junkTrainer

/-- Witness for C8: the concrete one-layer network stores grain size 524. -/
theorem c8_default_grain_size_witness :
    exTrainer.net.grainSize = 524 ∧ 1 ≤ exTrainer.net.grainSize := by
  have h := c8_default_grain_size 2 1 [[SumNeuron id]] exTrainer rfl
  refine ⟨h.1.trans ?_, h.2⟩
  have e1 : exTrainer.net.totalNumParameters = 3 := rfl
  have e2 : (exTrainer.net.neurons.map fun l => (l.length : Int)).sum = 1 := rfl
  have e3 : (exTrainer.net.neurons.length : Int) = 1 := rfl
  rw [e1, e2, e3]
  have e4 : ((3 + 70 * 1 + 200 * 1 : Int) : ℚ) = 273 := by norm_num
  rw [e4]
  have e5 : ⌈(100000 : ℚ) / ((7 / 10 : ℚ) * 273)⌉ = (524 : Int) := by
    rw [Int.ceil_eq_iff]
    norm_num
  rw [e5]
  decide

/-- A concrete two-layer network over `Int`: one sum neuron on two inputs,
then two sum neurons on its output. -/
def exNeurons : List (List (Neuron Int)) := [[SumNeuron id], [SumNeuron id, SumNeuron id]]

/-- Parameters for `exNeurons`: weights and bias per neuron. -/
def exParams : List (List (List Int)) := [[[1, 1, 1]], [[2, 0], [3, 1]]]

/-- Witness for C3: on the concrete two-layer network with input `[2, 3]`,
the scratch buffer left by `predict` holds the first layer's output
(`1·2 + 1·3 + 1 = 6`), resliced to that layer's width. -/
theorem c3_forward_pass_structure_witness :
    ((predict [2, 3] exNeurons exParams ⟨[0, 0], 2⟩ ⟨[0, 0], 2⟩ [0, 0]).2.1).view = [6] :=
  ((c3_forward_pass_structure [2, 3] exNeurons exParams ⟨[0, 0], 2⟩ ⟨[0, 0], 2⟩
    [0, 0]).2.2.1 (by decide)).trans (by decide)

/-!  ## Single-prediction and batch validation -/

/-- Whether a Go `(value, err)` return modelled as `Except` carried an
error. -/
def isError {ε β : Type} : Except ε β → Bool
  | .error _ => true
  | .ok _ => false

/-- **C4**: `Net.Predict` returns a dimension-mismatch error exactly when the
input length differs from the declared input dimension or a non-nil output
buffer's length differs from the declared output dimension; with a nil
output buffer and a matching input it allocates a fresh zeroed buffer of the
declared output dimension, runs the forward pass into it, and returns it
(of the declared output length, for a well-formed final layer) with no
error. -/
theorem c4_predict_validation {α : Type} [Zero α] (n : Net α) (input : List α)
    (output : Option (List α)) :
    (isError (Net.Predict n input output) = true ↔
      ((input.length : Int) ≠ n.inputDim ∨
        ∃ out, output = some out ∧ (out.length : Int) ≠ n.outputDim))
    ∧ (output = none → (input.length : Int) = n.inputDim →
        Net.Predict n input none =
          .ok (predict input n.neurons n.parameters (newPredictMemory n.neurons).1
            (newPredictMemory n.neurons).2 (List.replicate n.outputDim.toNat 0)).2.2)
    ∧ (n.neurons.zip n.parameters ≠ [] →
        ((n.neurons.zip n.parameters).getLastD ([], [])).1.length ≤
          ((n.neurons.zip n.parameters).getLastD ([], [])).2.length →
        ((((n.neurons.zip n.parameters).getLastD ([], [])).1.length : Int) = n.outputDim) →
        ∀ r, Net.Predict n input none = .ok r → r.length = n.outputDim.toNat) := by
  refine ⟨?_, ?_, ?_⟩
  · cases output with
    | none =>
        unfold Net.Predict
        split
        next h => simp [isError, h]
        next h => simp [isError, h]
    | some out =>
        unfold Net.Predict
        split
        next h => simp [isError, h]
        next h =>
          split
          · simp_all
          · rename_i o ho
            injection ho with ho2
            subst ho2
            split
            next h2 => simp [isError, h, h2]
            next h2 => simp [isError, h, h2]
  · intro _ hin
    unfold Net.Predict
    rw [if_neg (by omega)]
  · intro hne hlen hdim r hr
    unfold Net.Predict at hr
    split at hr
    · exact absurd hr (by simp)
    · simp only [Except.ok.injEq] at hr
      subst hr
      rw [predict_out_eq _ _ _ _ _ _ hne]
      rw [processLayer]
      rw [List.length_append, List.length_drop]
      have hv : (layerVals (forward input (n.neurons.zip n.parameters).dropLast)
          ((n.neurons.zip n.parameters).getLastD ([], [])).1
          ((n.neurons.zip n.parameters).getLastD ([], [])).2).length =
          ((n.neurons.zip n.parameters).getLastD ([], [])).1.length := by
        rw [layerVals, List.length_map, List.length_zip]
        omega
      rw [hv, List.length_replicate]
      omega

/-- A concrete `Net` over `Int` wrapping the two-layer example network. -/
def exNet : Net Int := ⟨2, 2, 5, 1, exNeurons, exParams⟩

/-- Witness for C4: a nil output buffer with a matching input yields the
forward-pass result with no error. -/
theorem c4_predict_validation_witness :
    Net.Predict exNet [2, 3] none = .ok [12, 19] :=
  ((c4_predict_validation exNet [2, 3] none).2.1 rfl (by decide)).trans (by rfl)

/-- **C5**: `BatchPredict` errors exactly when the inputs' width differs from
`inputDim` or a supplied sink's width differs from `outputDim` or its row
count differs from the inputs'; on error the (possibly nil) outputs argument
is handed back untouched, with no row ever written; with no sink and a
matching input width it allocates a fresh `nSamples × outputDim` zeroed
`SosMatrix` (a `RowViewer`) and proceeds to dispatch on it. -/
theorem c5_batch_validation {α : Type} [Zero α] (batch : batchPredictor α)
    (inputs : Mat α) (outputs : Option (Mat α)) (inputDim outputDim grainSize : Int) :
    ((BatchPredict batch inputs outputs inputDim outputDim grainSize).isErr = true ↔
      (inputDim ≠ (matWidth inputs : Int) ∨
        ∃ outs, outputs = some outs ∧
          ((matWidth outs : Int) ≠ outputDim ∨ inputs.rows.length ≠ outs.rows.length)))
    ∧ (∀ o msg,
        BatchPredict batch inputs outputs inputDim outputDim grainSize = .err o msg →
        o = outputs)
    ∧ (outputs = none → inputDim = (matWidth inputs : Int) →
        BatchPredict batch inputs none inputDim outputDim grainSize =
          dispatchRun batch inputs
            ⟨List.replicate inputs.rows.length (List.replicate outputDim.toNat 0), true⟩
            inputDim outputDim grainSize) := by
  have hrun : ∀ (outs : Mat α),
      (dispatchRun batch inputs outs inputDim outputDim grainSize).isErr = false := by
    intro outs
    unfold dispatchRun
    cases hdc : dispatchCase inputs.rowViewer outs.rowViewer <;>
      simp only [hdc] <;> first | rfl | (split_ifs <;> rfl)
  have hrunNe : ∀ (outs : Mat α) o msg,
      dispatchRun batch inputs outs inputDim outputDim grainSize ≠ .err o msg := by
    intro outs o msg hc
    have := hrun outs
    rw [hc] at this
    simp [BPResult.isErr] at this
  refine ⟨?_, ?_, ?_⟩
  · cases outputs with
    | none =>
        simp only [BatchPredict]
        split
        next h => simp [BPResult.isErr, h]
        next h => simp [hrun, h]
    | some outs =>
        simp only [BatchPredict]
        split
        next h => simp [BPResult.isErr, h]
        next h =>
          split
          next hr => simp [BPResult.isErr, h, hr]
          next hr =>
            split
            next hrows => simp [BPResult.isErr, h, hr, hrows]
            next hrows => simp [hrun, h, hr, hrows]
  · intro o msg hbp
    cases outputs with
    | none =>
        simp only [BatchPredict] at hbp
        split at hbp
        · injection hbp with h1 h2
          exact h1.symm
        · exact absurd hbp (hrunNe _ o msg)
    | some outs =>
        simp only [BatchPredict] at hbp
        split at hbp
        · injection hbp with h1 h2
          exact h1.symm
        · split at hbp
          next hr =>
            injection hbp with h1 h2
            exact h1.symm
          next hr =>
            split at hbp
            next hrows =>
              injection hbp with h1 h2
              exact h1.symm
            next hrows => exact absurd hbp (hrunNe _ o msg)
  · intro _ hin
    simp only [BatchPredict]
    rw [if_neg (by omega)]

/-- Witness for C5: a sink whose width disagrees with `outputDim` is
rejected and handed back untouched. -/
theorem c5_batch_validation_witness :
    (BatchPredict (α := Int) ⟨exNeurons, exParams, 2, 2⟩ ⟨[[2, 3]], true⟩
        (some ⟨[[0]], true⟩) 2 2 1).isErr = true
    ∧ (∀ o msg,
        BatchPredict (α := Int) ⟨exNeurons, exParams, 2, 2⟩ ⟨[[2, 3]], true⟩
          (some ⟨[[0]], true⟩) 2 2 1 = .err o msg → o = some ⟨[[0]], true⟩) :=
  ⟨((c5_batch_validation ⟨exNeurons, exParams, 2, 2⟩ ⟨[[2, 3]], true⟩
      (some ⟨[[0]], true⟩) 2 2 1).1).2 (by right; exact ⟨_, rfl, by left; decide⟩),
    (c5_batch_validation ⟨exNeurons, exParams, 2, 2⟩ ⟨[[2, 3]], true⟩
      (some ⟨[[0]], true⟩) 2 2 1).2.1⟩

/-- **C6** (code bug): `NewSimpleTrainer`'s third validation re-checks
`inputDim <= 0` although its error message reads "non-positive number of
neurons per layer", so a non-positive `nNeuronsPerLayer` is never validated:
with no hidden layers a negative width is silently accepted and a network is
created; with hidden layers it crashes (`make` with negative length) instead
of returning an error.  `NewTrainer` never validates the declared input
dimension either: a zero input dimension is accepted and a network is
created with no error, and a negative one panics in the parameter-building
`make` instead of returning an error. -/
theorem c6_construction_validation_gap :
    (NewSimpleTrainer (α := Int) id 2 1 0 (-5) id).isOk = true
    ∧ NewSimpleTrainer (α := Int) id 2 1 1 (-5) id = .panicked
    ∧ (NewTrainer (α := Int) 0 2 [[SumNeuron id]]).isOk = true
    ∧ NewTrainer (α := Int) (-3) 2 [[SumNeuron id]] = .panicked :=
  ⟨rfl, rfl, rfl, rfl⟩

theorem claimFrom_step (n g s : Nat) (h : 0 < g ∧ s < n) :
    claimFrom n g s = (s, min (s + g) n) :: claimFrom n g (s + g) := by
  rw [claimFrom]
  simp [h]

theorem claimFrom_stop (n g s : Nat) (h : ¬(0 < g ∧ s < n)) :
    claimFrom n g s = [] := by
  rw [claimFrom]
  simp [h]

theorem chunks_one_one : chunks 1 1 = [(0, 1)] := by
  rw [chunks, claimFrom_step 1 1 0 (by omega), claimFrom_stop 1 1 1 (by omega)]
  norm_num

/-- **C1** (code bug): the dispatch switch's first case
(`case inputIsRowViewer, outputIsRowViewer:`) matches when *either* side is a
`RowViewer`, so a mixed-capability pair is dispatched to the both-sides
zero-copy strategy instead of the documented copy-on-the-incapable-side
strategy, and the worker then calls `RowView` through a nil interface: a
1-row batch with a view-capable source and a non-view-capable sink
panics. -/
theorem c1_dispatch_selection_bug :
    dispatchCase true false = Strategy.bothView
    ∧ dispatchCase false true = Strategy.bothView
    ∧ BatchPredict (α := Int) ⟨[[SumNeuron id]], [[[1, 1]]], 1, 1⟩ ⟨[[2]], true⟩
        (some ⟨[[0]], false⟩) 1 1 1 = .panicked := by
  refine ⟨rfl, rfl, ?_⟩
  have h1 : chunks (([[(2 : Int)]] : List (List Int)).length) (Int.toNat 1) = [(0, 1)] :=
    chunks_one_one
  have h2 : dispatchRun (α := Int) ⟨[[SumNeuron id]], [[[1, 1]]], 1, 1⟩ ⟨[[2]], true⟩
      ⟨[[0]], false⟩ 1 1 1 = .panicked := by
    simp only [dispatchRun]
    rw [h1]
    rfl
  have h0 : BatchPredict (α := Int) ⟨[[SumNeuron id]], [[[1, 1]]], 1, 1⟩ ⟨[[2]], true⟩
      (some ⟨[[0]], false⟩) 1 1 1 =
      dispatchRun (α := Int) ⟨[[SumNeuron id]], [[[1, 1]]], 1, 1⟩ ⟨[[2]], true⟩
        ⟨[[0]], false⟩ 1 1 1 := rfl
  rw [h0]
  exact h2

/-!  ## Frame property of the forward pass -/

theorem processLayerH_frame {α : Type} (ia iLen : Nat) (ns : List (Neuron α))
    (ps : List (List α)) (oa b : Nat) (hb : b ≠ oa) (h : Heap α) :
    processLayerH ia iLen ns ps oa h b = h b := by
  rw [processLayerH]
  generalize (ns.zip ps).enum = L
  induction L generalizing h with
  | nil => rfl
  | cons x xs ih =>
      rw [List.foldl_cons, ih]
      simp [hSet, hb]

theorem middleLayersH_frame {α : Type} :
    ∀ (ls : List (List (Neuron α) × List (List α))) (pa ta tLen : Nat) (h : Heap α)
      (b : Nat), b ≠ pa → b ≠ ta → (middleLayersH ls pa ta tLen h).2.2.2 b = h b
  | [], _, _, _, _, _, _, _ => rfl
  | l :: rest, pa, ta, tLen, h, b, hbp, hbt => by
      rw [middleLayersH]
      rw [middleLayersH_frame rest ta pa (l.1.zip l.2).length _ b hbt hbp]
      exact processLayerH_frame ta tLen l.1 l.2 pa b hbp h

/-- **C9**: when the input buffer does not alias the output buffer or either
scratch buffer, the forward pass leaves the input buffer unchanged — only
the scratch addresses and the output address are ever written.  (`Net.Predict`
passes freshly allocated scratch and output buffers, which never alias the
caller's input.) -/
theorem c9_input_not_mutated {α : Type} (ia iLen : Nat)
    (neurons : List (List (Neuron α))) (parameters : List (List (List α)))
    (pa ta oa : Nat) (h : Heap α)
    (h1 : ia ≠ pa) (h2 : ia ≠ ta) (h3 : ia ≠ oa) :
    predictH ia iLen neurons parameters pa ta oa h ia = h ia := by
  unfold predictH
  rcases hL : neurons.zip parameters with _ | ⟨l0, _ | ⟨l1, rest⟩⟩
  · rfl
  · exact processLayerH_frame ia iLen l0.1 l0.2 oa ia h3 h
  · simp only []
    rw [processLayerH_frame _ _ _ _ oa ia h3]
    rw [middleLayersH_frame _ pa ta _ _ ia h1 h2]
    exact processLayerH_frame ia iLen l0.1 l0.2 ta ia h2 h

/-- A concrete heap: the input buffer `[5, 7]` at address 0, zeroed buffers
elsewhere. -/
def exHeap : Heap Int := fun a => if a = 0 then [5, 7] else [0, 0]

/-- Witness for C9: running the forward pass over `exHeap` with input at
address 0 and scratch/output at addresses 1, 2, 3 leaves the input row
`[5, 7]` untouched. -/
theorem c9_input_not_mutated_witness :
    predictH 0 2 [[SumNeuron id]] [[[1, 1, 1]]] 1 2 3 exHeap 0 = [5, 7] :=
  (c9_input_not_mutated 0 2 [[SumNeuron id]] [[[1, 1, 1]]] 1 2 3 exHeap
    (by decide) (by decide) (by decide)).trans rfl

/-!  ## Batch/sequential equivalence -/

/-- The zipped layers of a batch predictor's network. -/
def bpLayers {α : Type} (bp : batchPredictor α) : List (List (Neuron α) × List (List α)) :=
  bp.neurons.zip bp.parameters

/-- The values the forward pass computes for one input row (the final
layer's values, fed by the forward composition of the earlier layers). -/
def valsRow {α : Type} (bp : batchPredictor α) (input : List α) : List α :=
  layerVals (forward input (bpLayers bp).dropLast)
    ((bpLayers bp).getLastD ([], [])).1 ((bpLayers bp).getLastD ([], [])).2

theorem valsRow_length {α : Type} (bp : batchPredictor α) (input : List α) :
    (valsRow bp input).length =
      (((bpLayers bp).getLastD ([], [])).1.zip ((bpLayers bp).getLastD ([], [])).2).length := by
  simp [valsRow, layerVals]

theorem predictor_Predict_eq {α : Type} [Zero α] (bp : batchPredictor α)
    (hne : bpLayers bp ≠ []) (input output : List α) :
    (bp.NewPredictor).Predict input output =
      valsRow bp input ++ output.drop (valsRow bp input).length := by
  unfold predictor.Predict batchPredictor.NewPredictor
  rw [predict_out_eq _ _ _ _ _ _ hne]
  rfl

theorem getD_mem {α : Type} (l : List α) (i : Nat) (d : α) (h : i < l.length) :
    l.getD i d ∈ l := by
  rw [List.getD_eq_getElem?_getD, List.getElem?_eq_getElem h]
  exact List.getElem_mem h

theorem getD_set_self {α : Type} (l : List α) (i : Nat) (v d : α) (h : i < l.length) :
    (l.set i v).getD i d = v := by
  rw [List.getD_eq_getElem?_getD, List.getElem?_set]
  simp [h]

theorem getD_set_ne {α : Type} (l : List α) (i j : Nat) (v d : α) (hij : i ≠ j) :
    (l.set i v).getD j d = l.getD j d := by
  rw [List.getD_eq_getElem?_getD, List.getElem?_set_ne hij, ← List.getD_eq_getElem?_getD]

/-- `Row` on a matrix of uniform width returns exactly the requested row,
whatever the destination buffer held. -/
theorem Row_eq {α : Type} [Zero α] (rows : List (List α)) (d : List α) (i w : Nat)
    (hw : ∀ r ∈ rows, r.length = w) (hi : i < rows.length) :
    Row rows d i = rows.getD i [] := by
  rcases rows with _ | ⟨r0, rest⟩
  · simp at hi
  · have hw0 : ((r0 :: rest).headD []).length = w := hw r0 (by simp)
    have hsrc : ((r0 :: rest).getD i []).length = w :=
      hw _ (getD_mem _ i [] hi)
    unfold Row goCopy
    rw [hw0]
    dsimp only
    split
    next hd =>
      rw [List.length_replicate, hsrc, Nat.min_self, ← hsrc, List.take_length]
      rw [List.drop_eq_nil_of_le (by simp [hsrc])]
      simp
    next hd =>
      rw [List.length_take, hsrc]
      have hmin : min (min w d.length) w = w := by omega
      rw [hmin, ← hsrc, List.take_length]
      rw [List.drop_eq_nil_of_le (by simp [hsrc])]
      simp

/-- `SetRow` with a replacement of the same length as the target row is a
plain row update. -/
theorem SetRow_eq {α : Type} (rows : List (List α)) (i : Nat) (d : List α)
    (hlen : (rows.getD i []).length = d.length) :
    SetRow rows i d = rows.set i d := by
  unfold SetRow goCopy
  rw [hlen, Nat.min_self, ← hlen]
  rw [List.drop_eq_nil_of_le (by omega), hlen, List.take_length]
  simp

/-- A predictor run into a full-width output buffer returns exactly the
forward-pass values. -/
theorem Predict_full {α : Type} [Zero α] (bp : batchPredictor α) (wOut : Nat)
    (hne : bpLayers bp ≠ []) (hv : ∀ x : List α, (valsRow bp x).length = wOut)
    (input output : List α) (ho : output.length = wOut) :
    (bp.NewPredictor).Predict input output = valsRow bp input := by
  rw [predictor_Predict_eq bp hne, hv input, ← ho, List.drop_length, List.append_nil]

/-- The per-row body of the both-sides-view strategy as a fold step. -/
def viewStep {α : Type} [Zero α] (bp : batchPredictor α) (inputs : List (List α))
    (rs : List (List α)) (i : Nat) : List (List α) :=
  rs.set i ((bp.NewPredictor).Predict (inputs.getD i []) (rs.getD i []))

/-- Processing a list of row indices through the view strategy: every
processed row ends up holding its forward-pass values, every other row is
untouched, and row widths and count are preserved. -/
theorem viewFold {α : Type} [Zero α] (bp : batchPredictor α) (inputs : List (List α))
    (wOut : Nat) (hne : bpLayers bp ≠ [])
    (hv : ∀ x : List α, (valsRow bp x).length = wOut) :
    ∀ (L : List Nat) (rows : List (List α)),
      (∀ j ∈ L, j < rows.length) → (∀ r ∈ rows, r.length = wOut) →
      ((∀ j, (L.foldl (viewStep bp inputs) rows).getD j [] =
          if j ∈ L then valsRow bp (inputs.getD j []) else rows.getD j [])
        ∧ (∀ r ∈ L.foldl (viewStep bp inputs) rows, r.length = wOut)
        ∧ (L.foldl (viewStep bp inputs) rows).length = rows.length)
  | [], rows, _, hrows => ⟨fun j => by simp, hrows, rfl⟩
  | i :: L, rows, hb, hrows => by
      have hi : i < rows.length := hb i (by simp)
      have hcur : (rows.getD i []).length = wOut := hrows _ (getD_mem rows i [] hi)
      have hstep : viewStep bp inputs rows i =
          rows.set i (valsRow bp (inputs.getD i [])) := by
        unfold viewStep
        rw [Predict_full bp wOut hne hv _ _ hcur]
      rw [List.foldl_cons, hstep]
      have hb' : ∀ j ∈ L, j < (rows.set i (valsRow bp (inputs.getD i []))).length := by
        intro j hj
        rw [List.length_set]
        exact hb j (List.mem_cons_of_mem _ hj)
      have hrows' : ∀ r ∈ rows.set i (valsRow bp (inputs.getD i [])), r.length = wOut := by
        intro r hr
        rcases List.mem_or_eq_of_mem_set hr with hr | rfl
        · exact hrows r hr
        · exact hv _
      obtain ⟨ih1, ih2, ih3⟩ := viewFold bp inputs wOut hne hv L _ hb' hrows'
      refine ⟨?_, ih2, by rw [ih3, List.length_set]⟩
      intro j
      rw [ih1 j]
      by_cases hjL : j ∈ L
      · simp [hjL]
      · by_cases hji : j = i
        · subst hji
          rw [if_neg hjL, getD_set_self _ _ _ _ hi]
          simp
        · rw [if_neg hjL, getD_set_ne _ _ _ _ _ (fun h => hji h.symm)]
          simp [hjL, hji]

/-- The per-row body of the neither-side-view strategy as a fold step over
(output rows, input buffer, output buffer). -/
def copyStep {α : Type} [Zero α] (bp : batchPredictor α) (inputs : List (List α))
    (st : List (List α) × List α × List α) (i : Nat) :
    List (List α) × List α × List α :=
  let input := Row inputs st.2.1 i
  let output := Row st.1 st.2.2 i
  let out := (bp.NewPredictor).Predict input output
  (SetRow st.1 i out, input, out)

/-- Processing a list of row indices through the copy strategy behaves, on
the output rows, exactly like the view strategy, whatever the temporary row
buffers hold. -/
theorem copyFold {α : Type} [Zero α] (bp : batchPredictor α) (inputs : List (List α))
    (wIn wOut : Nat) (hne : bpLayers bp ≠ [])
    (hv : ∀ x : List α, (valsRow bp x).length = wOut)
    (hIn : ∀ r ∈ inputs, r.length = wIn) :
    ∀ (L : List Nat) (rows : List (List α)) (bIn bOut : List α),
      (∀ j ∈ L, j < rows.length ∧ j < inputs.length) →
      (∀ r ∈ rows, r.length = wOut) →
      ((∀ j, (L.foldl (copyStep bp inputs) (rows, bIn, bOut)).1.getD j [] =
          if j ∈ L then valsRow bp (inputs.getD j []) else rows.getD j [])
        ∧ (∀ r ∈ (L.foldl (copyStep bp inputs) (rows, bIn, bOut)).1, r.length = wOut)
        ∧ (L.foldl (copyStep bp inputs) (rows, bIn, bOut)).1.length = rows.length)
  | [], rows, _, _, _, hrows => ⟨fun j => by simp, hrows, rfl⟩
  | i :: L, rows, bIn, bOut, hb, hrows => by
      have hi : i < rows.length := (hb i (by simp)).1
      have hiI : i < inputs.length := (hb i (by simp)).2
      have hinput : Row inputs bIn i = inputs.getD i [] := Row_eq inputs bIn i wIn hIn hiI
      have hcur : (rows.getD i []).length = wOut := hrows _ (getD_mem rows i [] hi)
      have houtput : Row rows bOut i = rows.getD i [] := Row_eq rows bOut i wOut hrows hi
      have hstep : copyStep bp inputs (rows, bIn, bOut) i =
          (rows.set i (valsRow bp (inputs.getD i [])), inputs.getD i [],
            valsRow bp (inputs.getD i [])) := by
        unfold copyStep
        dsimp only
        rw [hinput, houtput, Predict_full bp wOut hne hv _ _ hcur]
        rw [SetRow_eq rows i _ (by rw [hcur, hv])]
      rw [List.foldl_cons, hstep]
      have hb' : ∀ j ∈ L, j < (rows.set i (valsRow bp (inputs.getD i []))).length
          ∧ j < inputs.length := by
        intro j hj
        rw [List.length_set]
        exact hb j (List.mem_cons_of_mem _ hj)
      have hrows' : ∀ r ∈ rows.set i (valsRow bp (inputs.getD i [])), r.length = wOut := by
        intro r hr
        rcases List.mem_or_eq_of_mem_set hr with hr | rfl
        · exact hrows r hr
        · exact hv _
      obtain ⟨ih1, ih2, ih3⟩ := copyFold bp inputs wIn wOut hne hv hIn L _
        (inputs.getD i []) (valsRow bp (inputs.getD i [])) hb' hrows'
      refine ⟨?_, ih2, by rw [ih3, List.length_set]⟩
      intro j
      rw [ih1 j]
      by_cases hjL : j ∈ L
      · simp [hjL]
      · by_cases hji : j = i
        · subst hji
          rw [if_neg hjL, getD_set_self _ _ _ _ hi]
          simp
        · rw [if_neg hjL, getD_set_ne _ _ _ _ _ (fun h => hji h.symm)]
          simp [hjL, hji]

/-- The both-sides-view strategy over a chunk list: every row index covered
by a chunk holds its forward-pass values, all other rows are untouched. -/
theorem runRowView_chunks {α : Type} [Zero α] (bp : batchPredictor α)
    (inputs : List (List α)) (wOut : Nat) (hne : bpLayers bp ≠ [])
    (hv : ∀ x : List α, (valsRow bp x).length = wOut) :
    ∀ (chs : List (Nat × Nat)) (rows : List (List α)),
      (∀ c ∈ chs, c.2 ≤ rows.length) → (∀ r ∈ rows, r.length = wOut) →
      ((∀ j, (runRowView bp inputs rows chs).getD j [] =
          if j ∈ chs.flatMap (fun c => List.range' c.1 (c.2 - c.1))
          then valsRow bp (inputs.getD j []) else rows.getD j [])
        ∧ (∀ r ∈ runRowView bp inputs rows chs, r.length = wOut)
        ∧ (runRowView bp inputs rows chs).length = rows.length)
  | [], rows, _, hrows => ⟨fun j => by simp [runRowView], hrows, rfl⟩
  | c :: cs, rows, hb, hrows => by
      have h1 : runRowView bp inputs rows (c :: cs) =
          runRowView bp inputs
            ((List.range' c.1 (c.2 - c.1)).foldl (viewStep bp inputs) rows) cs := rfl
      have hbL : ∀ j ∈ List.range' c.1 (c.2 - c.1), j < rows.length := by
        intro j hj
        rw [List.mem_range'_1] at hj
        have := hb c (by simp)
        omega
      obtain ⟨f1, f2, f3⟩ := viewFold bp inputs wOut hne hv
        (List.range' c.1 (c.2 - c.1)) rows hbL hrows
      have hb' : ∀ d ∈ cs, d.2 ≤
          ((List.range' c.1 (c.2 - c.1)).foldl (viewStep bp inputs) rows).length := by
        intro d hd
        rw [f3]
        exact hb d (List.mem_cons_of_mem _ hd)
      obtain ⟨ih1, ih2, ih3⟩ := runRowView_chunks bp inputs wOut hne hv cs _ hb' f2
      rw [h1]
      refine ⟨?_, ih2, by rw [ih3, f3]⟩
      intro j
      rw [ih1 j, List.flatMap_cons]
      by_cases hjc : j ∈ cs.flatMap (fun c => List.range' c.1 (c.2 - c.1))
      · simp [hjc]
      · rw [if_neg hjc, f1 j]
        by_cases hjr : j ∈ List.range' c.1 (c.2 - c.1)
        · simp [hjr, hjc]
        · simp [hjr, hjc]

/-- The neither-side-view strategy over a chunk list: identical row results
to the view strategy. -/
theorem runCopyBoth_chunks {α : Type} [Zero α] (bp : batchPredictor α)
    (inputs : List (List α)) (inD outD : Int) (wIn wOut : Nat)
    (hne : bpLayers bp ≠ [])
    (hv : ∀ x : List α, (valsRow bp x).length = wOut)
    (hIn : ∀ r ∈ inputs, r.length = wIn) :
    ∀ (chs : List (Nat × Nat)) (rows : List (List α)),
      (∀ c ∈ chs, c.2 ≤ rows.length ∧ c.2 ≤ inputs.length) →
      (∀ r ∈ rows, r.length = wOut) →
      ((∀ j, (runCopyBoth bp inputs inD outD rows chs).getD j [] =
          if j ∈ chs.flatMap (fun c => List.range' c.1 (c.2 - c.1))
          then valsRow bp (inputs.getD j []) else rows.getD j [])
        ∧ (∀ r ∈ runCopyBoth bp inputs inD outD rows chs, r.length = wOut)
        ∧ (runCopyBoth bp inputs inD outD rows chs).length = rows.length)
  | [], rows, _, hrows => ⟨fun j => by simp [runCopyBoth], hrows, rfl⟩
  | c :: cs, rows, hb, hrows => by
      have h1 : runCopyBoth bp inputs inD outD rows (c :: cs) =
          runCopyBoth bp inputs inD outD
            (((List.range' c.1 (c.2 - c.1)).foldl (copyStep bp inputs)
              (rows, List.replicate inD.toNat 0, List.replicate outD.toNat 0)).1) cs := rfl
      have hbL : ∀ j ∈ List.range' c.1 (c.2 - c.1),
          j < rows.length ∧ j < inputs.length := by
        intro j hj
        rw [List.mem_range'_1] at hj
        have := hb c (by simp)
        omega
      obtain ⟨f1, f2, f3⟩ := copyFold bp inputs wIn wOut hne hv hIn
        (List.range' c.1 (c.2 - c.1)) rows (List.replicate inD.toNat 0)
        (List.replicate outD.toNat 0) hbL hrows
      have hb' : ∀ d ∈ cs, d.2 ≤
          (((List.range' c.1 (c.2 - c.1)).foldl (copyStep bp inputs)
            (rows, List.replicate inD.toNat 0, List.replicate outD.toNat 0)).1).length
          ∧ d.2 ≤ inputs.length := by
        intro d hd
        rw [f3]
        exact hb d (List.mem_cons_of_mem _ hd)
      obtain ⟨ih1, ih2, ih3⟩ := runCopyBoth_chunks bp inputs inD outD wIn wOut hne hv hIn
        cs _ hb' f2
      rw [h1]
      refine ⟨?_, ih2, by rw [ih3, f3]⟩
      intro j
      rw [ih1 j, List.flatMap_cons]
      by_cases hjc : j ∈ cs.flatMap (fun c => List.range' c.1 (c.2 - c.1))
      · simp [hjc]
      · rw [if_neg hjc, f1 j]
        by_cases hjr : j ∈ List.range' c.1 (c.2 - c.1)
        · simp [hjr, hjc]
        · simp [hjr, hjc]

theorem dispatchRun_true_true {α : Type} [Zero α] (batch : batchPredictor α)
    (inputs outputs : Mat α) (iD oD gz : Int)
    (hIn : inputs.rowViewer = true) (hOut : outputs.rowViewer = true) :
    dispatchRun batch inputs outputs iD oD gz =
      .ok ⟨runRowView batch inputs.rows outputs.rows
        (chunks inputs.rows.length gz.toNat), true⟩ := by
  unfold dispatchRun
  rw [hIn, hOut]
  rfl

theorem dispatchRun_false_false {α : Type} [Zero α] (batch : batchPredictor α)
    (inputs outputs : Mat α) (iD oD gz : Int)
    (hIn : inputs.rowViewer = false) (hOut : outputs.rowViewer = false) :
    dispatchRun batch inputs outputs iD oD gz =
      .ok ⟨runCopyBoth batch inputs.rows iD oD outputs.rows
        (chunks inputs.rows.length gz.toNat), false⟩ := by
  unfold dispatchRun
  rw [hIn, hOut]
  rfl

theorem dispatchRun_mixed {α : Type} [Zero α] (batch : batchPredictor α)
    (inputs outputs : Mat α) (iD oD gz : Int)
    (hone : (inputs.rowViewer || outputs.rowViewer) = true)
    (hmix : (inputs.rowViewer && outputs.rowViewer) = false) :
    dispatchRun batch inputs outputs iD oD gz =
      if chunks inputs.rows.length gz.toNat = [] then .ok outputs
      else .panicked := by
  unfold dispatchRun
  have hd : dispatchCase inputs.rowViewer outputs.rowViewer = .bothView := by
    unfold dispatchCase
    rw [hone]
    rfl
  rw [hd]
  simp only [hmix, Bool.false_eq_true, if_false]

/-- **C2**: for a well-formed network and a batch of rows of matching
dimensions, whenever `BatchPredict` returns a result, every result row is
identical to predicting that row individually through `Net.Predict`.  (When
exactly one side is view-capable and at least one chunk is claimed the call
panics — claim C1 — and returns nothing, so the equivalence is stated over
the returned result.) -/
theorem c2_batch_matches_single {α : Type} [Zero α] (net : Net α)
    (inRows : List (List α)) (vIn : Bool) (outputs : Option (Mat α)) (g : Int)
    (wIn wOut : Nat)
    (hg : 1 ≤ g)
    (hne : net.neurons.zip net.parameters ≠ [])
    (hlast : (((net.neurons.zip net.parameters).getLastD ([], [])).1.zip
        ((net.neurons.zip net.parameters).getLastD ([], [])).2).length = wOut)
    (hOut : (wOut : Int) = net.outputDim)
    (hwidth : ∀ r ∈ inRows, r.length = wIn)
    (houts : ∀ m, outputs = some m → ∀ r ∈ m.rows, r.length = wOut)
    (res : Mat α)
    (hok : BatchPredict ⟨net.neurons, net.parameters, net.inputDim, net.outputDim⟩
      ⟨inRows, vIn⟩ outputs net.inputDim net.outputDim g = .ok res) :
    ∀ i, i < inRows.length →
      Net.Predict net (inRows.getD i []) none = .ok (res.rows.getD i []) := by
  intro i hi
  have hk : 0 < inRows.length := Nat.lt_of_le_of_lt (Nat.zero_le i) hi
  have hgn : 0 < g.toNat := by omega
  have hneB : bpLayers ⟨net.neurons, net.parameters, net.inputDim, net.outputDim⟩ ≠ [] :=
    hne
  have hv : ∀ x : List α,
      (valsRow ⟨net.neurons, net.parameters, net.inputDim, net.outputDim⟩ x).length
        = wOut :=
    fun x => (valsRow_length _ x).trans hlast
  have hflat : (chunks inRows.length g.toNat).flatMap
      (fun c => List.range' c.1 (c.2 - c.1)) = List.range' 0 inRows.length := by
    have h := claimFrom_flat inRows.length g.toNat hgn 0
    simpa [chunks] using h
  have hiflat : i ∈ (chunks inRows.length g.toNat).flatMap
      (fun c => List.range' c.1 (c.2 - c.1)) := by
    rw [hflat, List.mem_range'_1]
    omega
  have hchb : ∀ c ∈ chunks inRows.length g.toNat, c.2 ≤ inRows.length :=
    fun c hc => (claimFrom_mem _ _ 0 c hc).2.2
  have hchne : chunks inRows.length g.toNat ≠ [] := by
    rw [chunks, claimFrom_step _ _ _ ⟨hgn, hk⟩]
    simp
  have hhead : matWidth (⟨inRows, vIn⟩ : Mat α) = wIn := by
    rcases inRows with _ | ⟨r0, rest⟩
    · exact absurd hi (by simp)
    · exact hwidth r0 (by simp)
  have hrowlen : (inRows.getD i []).length = wIn := hwidth _ (getD_mem _ _ _ hi)
  -- the single-row side, once the input-dimension equality is known
  have hsingle : net.inputDim = (wIn : Int) →
      Net.Predict net (inRows.getD i []) none =
        .ok (valsRow ⟨net.neurons, net.parameters, net.inputDim, net.outputDim⟩
          (inRows.getD i [])) := by
    intro hID
    unfold Net.Predict
    rw [if_neg (by omega)]
    dsimp only
    rw [predict_out_eq _ _ _ _ _ _ hne]
    have hveq : valsRow ⟨net.neurons, net.parameters, net.inputDim, net.outputDim⟩
        (inRows.getD i []) =
        layerVals (forward (inRows.getD i []) (net.neurons.zip net.parameters).dropLast)
          ((net.neurons.zip net.parameters).getLastD ([], [])).1
          ((net.neurons.zip net.parameters).getLastD ([], [])).2 := rfl
    rw [processLayer, ← hveq, hv]
    have hto : net.outputDim.toNat = wOut := by omega
    rw [hto]
    rw [show (List.replicate wOut (0 : α)).drop wOut = [] from by simp]
    rw [List.append_nil]
  rcases outputs with _ | m
  · -- nil outputs: a fresh RowViewer sink is allocated
    simp only [BatchPredict] at hok
    split at hok
    · exact BPResult.noConfusion hok
    next hvalid =>
      have hID : net.inputDim = (wIn : Int) := by omega
      have hfrows : ∀ r ∈ List.replicate inRows.length
          (List.replicate net.outputDim.toNat (0 : α)), r.length = wOut := by
        intro r hr
        rw [List.eq_of_mem_replicate hr, List.length_replicate]
        omega
      cases vIn with
      | true =>
          rw [dispatchRun_true_true
            ⟨net.neurons, net.parameters, net.inputDim, net.outputDim⟩ ⟨inRows, true⟩
            ⟨List.replicate inRows.length (List.replicate net.outputDim.toNat 0), true⟩
            net.inputDim net.outputDim g rfl rfl] at hok
          injection hok with hres
          subst hres
          obtain ⟨f1, _, _⟩ := runRowView_chunks _ inRows wOut hneB hv
            (chunks inRows.length g.toNat) _
            (by intro c hc; rw [List.length_replicate]; exact hchb c hc) hfrows
          rw [hsingle hID]
          exact congrArg Except.ok ((f1 i).trans (if_pos hiflat)).symm
      | false =>
          rw [dispatchRun_mixed
            ⟨net.neurons, net.parameters, net.inputDim, net.outputDim⟩ ⟨inRows, false⟩
            ⟨List.replicate inRows.length (List.replicate net.outputDim.toNat 0), true⟩
            net.inputDim net.outputDim g rfl rfl] at hok
          rw [if_neg hchne] at hok
          exact BPResult.noConfusion hok
  · -- supplied outputs matrix
    have hmrows : ∀ r ∈ m.rows, r.length = wOut := houts m rfl
    simp only [BatchPredict] at hok
    split at hok
    · exact BPResult.noConfusion hok
    next hvalid =>
      have hID : net.inputDim = (wIn : Int) := by omega
      split at hok
      · exact BPResult.noConfusion hok
      next hwout =>
        split at hok
        · exact BPResult.noConfusion hok
        next hrowseq =>
          have hmlen : m.rows.length = inRows.length := by omega
          cases vIn with
          | true =>
              cases hmv : m.rowViewer with
              | true =>
                  rw [dispatchRun_true_true
                    ⟨net.neurons, net.parameters, net.inputDim, net.outputDim⟩
                    ⟨inRows, true⟩ m net.inputDim net.outputDim g rfl hmv] at hok
                  injection hok with hres
                  subst hres
                  obtain ⟨f1, _, _⟩ := runRowView_chunks _ inRows wOut hneB hv
                    (chunks inRows.length g.toNat) m.rows
                    (by intro c hc; rw [hmlen]; exact hchb c hc) hmrows
                  rw [hsingle hID]
                  exact congrArg Except.ok ((f1 i).trans (if_pos hiflat)).symm
              | false =>
                  rw [dispatchRun_mixed
                    ⟨net.neurons, net.parameters, net.inputDim, net.outputDim⟩
                    ⟨inRows, true⟩ m net.inputDim net.outputDim g
                    (by simp) (by simp [hmv])] at hok
                  rw [if_neg hchne] at hok
                  exact BPResult.noConfusion hok
          | false =>
              cases hmv : m.rowViewer with
              | true =>
                  rw [dispatchRun_mixed
                    ⟨net.neurons, net.parameters, net.inputDim, net.outputDim⟩
                    ⟨inRows, false⟩ m net.inputDim net.outputDim g
                    (by simp [hmv]) (by simp)] at hok
                  rw [if_neg hchne] at hok
                  exact BPResult.noConfusion hok
              | false =>
                  rw [dispatchRun_false_false
                    ⟨net.neurons, net.parameters, net.inputDim, net.outputDim⟩
                    ⟨inRows, false⟩ m net.inputDim net.outputDim g rfl hmv] at hok
                  injection hok with hres
                  subst hres
                  obtain ⟨f1, _, _⟩ := runCopyBoth_chunks _ inRows net.inputDim
                    net.outputDim wIn wOut hneB hv hwidth
                    (chunks inRows.length g.toNat) m.rows
                    (by intro c hc; rw [hmlen]; exact ⟨hchb c hc, hchb c hc⟩) hmrows
                  rw [hsingle hID]
                  exact congrArg Except.ok ((f1 i).trans (if_pos hiflat)).symm

theorem chunks_two_one : chunks 2 1 = [(0, 1), (1, 2)] := by
  rw [chunks, claimFrom_step 2 1 0 (by omega)]
  norm_num
  rw [claimFrom_step 2 1 1 (by omega), claimFrom_stop 2 1 2 (by omega)]
  norm_num

/-- Witness for C2: a 2-row batch through the dispatcher (both sides
view-capable, grain size 1) gives row 1 exactly the single-row prediction
`[6, 10]`. -/
theorem c2_batch_matches_single_witness :
    Net.Predict exNet [1, 1] none = .ok [6, 10] := by
  have h1 : chunks ([[(2 : Int), 3], [1, 1]] : List (List Int)).length (Int.toNat 1) =
      [(0, 1), (1, 2)] := chunks_two_one
  have h2 : dispatchRun (α := Int) ⟨exNeurons, exParams, 2, 2⟩ ⟨[[2, 3], [1, 1]], true⟩
      ⟨[[0, 0], [0, 0]], true⟩ 2 2 1 = .ok ⟨[[12, 19], [6, 10]], true⟩ := by
    simp only [dispatchRun]
    rw [h1]
    rfl
  have h0 : BatchPredict (α := Int) ⟨exNeurons, exParams, 2, 2⟩ ⟨[[2, 3], [1, 1]], true⟩
      (some ⟨[[0, 0], [0, 0]], true⟩) 2 2 1 =
      dispatchRun (α := Int) ⟨exNeurons, exParams, 2, 2⟩ ⟨[[2, 3], [1, 1]], true⟩
        ⟨[[0, 0], [0, 0]], true⟩ 2 2 1 := rfl
  have h := c2_batch_matches_single exNet [[2, 3], [1, 1]] true
    (some ⟨[[0, 0], [0, 0]], true⟩) 1 2 2 (by decide)
    (by simp [exNet, exNeurons, exParams]) (by decide) (by decide) (by decide)
    (by
      intro m hm
      injection hm with hm
      subst hm
      decide)
    ⟨[[12, 19], [6, 10]], true⟩ (h0.trans h2) 1 (by decide)
  exact h

end Netbench
